import Mathlib

/-!
Verification of the manifest apply/delete engine (package `manifests`).

The Go source consists of a manifest parser (`parse`/`read`/`decode`) and a
resource apply/delete engine (`YamlFile.Apply`, `YamlFile.Delete`,
`YamlFile.ResourceNames`) together with the helpers `pluralize`, `client`
and `isClusterScoped`.  This file gives a shallow embedding of that code:

* `Unstructured` models `unstructured.Unstructured` restricted to the fields
  the engine reads or writes (`apiVersion`, `kind`, namespace, `name`,
  `ownerReferences`) plus an opaque payload for everything else.
* The remote dynamic client is modelled by `RemoteAPI σ`: explicit
  state-passing functions for `Get`, `Create` and `Delete`.  Theorems that
  quantify over all `RemoteAPI` cover every possible remote behaviour; the
  concrete instance `storeAPI` models a deterministic remote store (get
  succeeds iff the key is present, create fails with AlreadyExists iff the
  key is present).
* `applyLoop` / `deleteLoop` are the bodies of `YamlFile.Apply` and
  `YamlFile.Delete`; each returns an error option, the final remote state, a
  trace of remote operations in the order they were issued, and (for apply)
  the stored resource list after the call — Go's `spec.SetOwnerReferences`
  mutates the stored resource through the shared underlying map, which the
  embedding captures by returning the updated list.
* `revSwapLoop` is the two-pointer in-place reversal loop of `Delete`,
  embedded on `Array` and proved equal to `List.reverse`.
-/

namespace Manifests

deriving instance DecidableEq for Except

/-- `v1.OwnerReference`: identifies the controlling object attached to
created resources. -/
structure OwnerReference where
  apiVersion : String
  kind : String
  name : String
  uid : String
deriving DecidableEq, Repr

/-- `unstructured.Unstructured`, restricted to the fields the engine touches.
`payload` stands for the rest of the document, passed through unchanged. -/
structure Unstructured where
  apiVersion : String
  kind : String
  ns : String
  name : String
  ownerReferences : List OwnerReference
  payload : List (String × String)
deriving DecidableEq, Repr

/-- `schema.GroupVersion`. -/
structure GroupVersion where
  group : String
  version : String
deriving DecidableEq, Repr

/-- Go's `strings.ToLower`, character-wise over the character list
(`Char.toLower` lowercases the basic latin letters, which is exactly what
the manifest kind strings use). -/
def toLowerGo (s : String) : String := ⟨s.data.map Char.toLower⟩

/-- Go's `strings.HasSuffix`, over the character list. -/
def hasSuffixGo (s post : String) : Bool := post.data.isSuffixOf s.data

/-- Splitting a character list at every occurrence of one character. -/
def splitCh (c : Char) : List Char → List (List Char)
  | [] => [[]]
  | x :: xs =>
    match splitCh c xs with
    | [] => [[]]
    | y :: ys => if x = c then [] :: y :: ys else (x :: y) :: ys

/-- Modelled from the k8s apimachinery dependency `schema.ParseGroupVersion`
(not part of this repository): the empty string and `"/"` parse to the empty
group/version, a string without `/` is a bare version, a string with exactly
one `/` splits into group and version at it, and anything with more than
one `/` is a parse error. -/
def ParseGroupVersion (gv : String) : Except String GroupVersion :=
  if gv = "" || gv = "/" then .ok ⟨"", ""⟩
  else
    match splitCh '/' gv.data with
    | [v] => .ok ⟨"", ⟨v⟩⟩
    | [g, v] => .ok ⟨⟨g⟩, ⟨v⟩⟩
    | _ => .error ("unexpected GroupVersion string: " ++ gv)

/-- `pluralize` (Go): lower-case the kind, then append `"es"` after a
trailing `"s"`, replace a trailing `"policy"`'s `"y"` by `"ies"`, and
otherwise append `"s"`. -/
def pluralize (kind : String) : String :=
  let ret := toLowerGo kind
  if hasSuffixGo ret "s" then ret ++ "es"
  else if hasSuffixGo ret "policy" then String.mk ret.data.dropLast ++ "ies"
  else ret ++ "s"

/-- `isClusterScoped` (Go): the fixed switch over the lower-cased kind. -/
def isClusterScoped (kind : String) : Bool :=
  let k := toLowerGo kind
  k == "namespace" || k == "clusterrole" || k == "clusterrolebinding"
    || k == "customresourcedefinition"

/-- The resolved endpoint plus the resource name: the identity a remote
operation is addressed to (`client(spec)` followed by `Get/Create/Delete`
with `spec.GetName()`). -/
structure ResourceKey where
  group : String
  version : String
  resource : String
  ns : String
  name : String
deriving DecidableEq, Repr

/-- `client` (Go): parse the apiVersion into group/version and pair it with
the pluralized kind; the namespace selects the namespaced endpoint (an empty
namespace means the cluster-scoped endpoint).  We also record the name the
subsequent call addresses, giving the full `ResourceKey`. -/
def client (spec : Unstructured) : Except String ResourceKey :=
  match ParseGroupVersion spec.apiVersion with
  | .error e => .error e
  | .ok gv => .ok ⟨gv.group, gv.version, pluralize spec.kind, spec.ns, spec.name⟩

/-- Remote status errors distinguished by the engine via
`errors.IsNotFound` / `errors.IsAlreadyExists`. -/
inductive StatusErr where
  | notFound
  | alreadyExists
  | other (code : Nat)
deriving DecidableEq, Repr

/-- `errors.IsNotFound`. -/
def IsNotFound : StatusErr → Bool
  | .notFound => true
  | _ => false

/-- `errors.IsAlreadyExists`. -/
def IsAlreadyExists : StatusErr → Bool
  | .alreadyExists => true
  | _ => false

/-- The errors an engine call can return: a group/version resolution error
from `client`, or a remote error propagated from `Get`/`Create`. -/
inductive EngineErr where
  | resolution (msg : String)
  | remote (e : StatusErr)
deriving DecidableEq, Repr

/-- The remote dynamic client, as explicit state passing: each operation
returns `none` on success or `some e` on failure, together with the new
remote state.  Quantifying over `RemoteAPI σ` quantifies over every possible
remote behaviour. -/
structure RemoteAPI (σ : Type) where
  get : σ → ResourceKey → Option StatusErr × σ
  create : σ → ResourceKey → Unstructured → Option StatusErr × σ
  delete : σ → ResourceKey → Option StatusErr × σ

/-- One remote operation issued by the engine, in issue order. -/
inductive Op where
  | getOp (k : ResourceKey)
  | createOp (k : ResourceKey) (obj : Unstructured)
  | deleteOp (k : ResourceKey)
deriving DecidableEq, Repr

/-- The owner-reference injection performed just before `Create`
(lines 178–183): cluster-scoped kinds are exempt, every other resource has
its ownerReferences list replaced by the single caller-supplied owner. -/
def applyOwner (owner : OwnerReference) (spec : Unstructured) : Unstructured :=
  if isClusterScoped spec.kind then spec
  else { spec with ownerReferences := [owner] }

/-- Result of one `Apply` call: the returned error (`none` for nil), the
final remote state, the trace of remote operations issued, and the stored
resource list after the call (owner-reference injection mutates the stored
resources through the shared map). -/
structure ApplyOut (σ : Type) where
  err : Option EngineErr
  state : σ
  trace : List Op
  resources : List Unstructured
deriving Repr

variable {σ : Type}

/-- The loop body of `YamlFile.Apply` (lines 165–194): per resource, resolve
the client (abort on resolution error), `Get` by name (skip when found,
abort on a non-NotFound error), inject the owner reference unless the kind
is cluster-scoped, `Create` (AlreadyExists is treated as success, any other
error aborts). -/
def applyLoop (api : RemoteAPI σ) (owner : OwnerReference) :
    List Unstructured → σ → ApplyOut σ
  | [], s => ⟨none, s, [], []⟩
  | spec :: rest, s =>
    match client spec with
    | .error m => ⟨some (.resolution m), s, [], spec :: rest⟩
    | .ok k =>
      match api.get s k with
      | (none, s1) =>
        let out := applyLoop api owner rest s1
        ⟨out.err, out.state, .getOp k :: out.trace, spec :: out.resources⟩
      | (some e, s1) =>
        if IsNotFound e then
          let spec' := applyOwner owner spec
          match api.create s1 k spec' with
          | (none, s2) =>
            let out := applyLoop api owner rest s2
            ⟨out.err, out.state, .getOp k :: .createOp k spec' :: out.trace,
              spec' :: out.resources⟩
          | (some ce, s2) =>
            if IsAlreadyExists ce then
              let out := applyLoop api owner rest s2
              ⟨out.err, out.state, .getOp k :: .createOp k spec' :: out.trace,
                spec' :: out.resources⟩
            else
              ⟨some (.remote ce), s2, [.getOp k, .createOp k spec'], spec' :: rest⟩
        else
          ⟨some (.remote e), s1, [.getOp k], spec :: rest⟩

/-- Result of one `Delete` call: the returned error, final remote state and
the trace of delete operations issued. -/
structure DelOut (σ : Type) where
  err : Option EngineErr
  state : σ
  trace : List Op
deriving Repr

/-- The loop body of `YamlFile.Delete` over the (already reversed) copy of
the resources (lines 203–211): resolve the client (abort on resolution
error), issue the delete, and ignore its outcome. -/
def deleteLoop (api : RemoteAPI σ) : List Unstructured → σ → DelOut σ
  | [], s => ⟨none, s, []⟩
  | spec :: rest, s =>
    match client spec with
    | .error m => ⟨some (.resolution m), s, []⟩
    | .ok k =>
      let s1 := (api.delete s k).2
      let out := deleteLoop api rest s1
      ⟨out.err, out.state, .deleteOp k :: out.trace⟩

/-- The two-pointer in-place reversal loop of `Delete` (lines 200–202):
`for left, right := 0, len(a)-1; left < right; ... { swap }`.  The bound
`right < a.size` holds on every reachable call (the initial right pointer is
`len(a)-1`) and is carried so `Array.swap` can be used. -/
def revSwapLoop {α : Type} (a : Array α) (left right : Nat) : Array α :=
  if h : left < right ∧ right < a.size then
    revSwapLoop (a.swap ⟨left, Nat.lt_trans h.1 h.2⟩ ⟨right, h.2⟩) (left + 1) (right - 1)
  else a
termination_by right - left
decreasing_by omega

/-- `Delete`'s reversal of the copied resource slice, as a list function:
copy into a fresh array, reverse it in place, read it back out. -/
def reverseCopy {α : Type} (l : List α) : List α :=
  let a := l.toArray
  (revSwapLoop a 0 (a.size - 1)).toList

/-- `YamlFile` (lines 223–227): the manifest path and the parsed resources
(the dynamic client is passed to the operations as the `RemoteAPI`). -/
structure YamlFile where
  name : String
  resources : List Unstructured
deriving Repr

/-- `YamlFile.Apply` (lines 165–194): run the apply loop over the stored
resources; the engine afterwards holds the (possibly owner-mutated)
resources, since the injection writes through the shared maps. -/
def YamlFile.Apply (api : RemoteAPI σ) (f : YamlFile) (owner : OwnerReference)
    (s : σ) : ApplyOut σ × YamlFile :=
  let out := applyLoop api owner f.resources s
  (out, { f with resources := out.resources })

/-- `YamlFile.Delete` (lines 196–213): copy the stored resources, reverse
the copy in place, run the delete loop over it.  `f.resources` itself is
never written, so the engine state after the call is `f` unchanged. -/
def YamlFile.Delete (api : RemoteAPI σ) (f : YamlFile) (s : σ) :
    DelOut σ × YamlFile :=
  (deleteLoop api (reverseCopy f.resources) s, f)

/-- `schema.GroupVersionKind.String()` from the apimachinery dependency:
`group + "/" + version + ", Kind=" + kind`. -/
def gvkString (g v k : String) : String :=
  g ++ "/" ++ v ++ ", Kind=" ++ k

/-- `Unstructured.GroupVersionKind()` rendered as a string, from the
apimachinery dependency: parse the apiVersion; on failure only the kind is
set. -/
def groupVersionKindOf (spec : Unstructured) : String :=
  match ParseGroupVersion spec.apiVersion with
  | .error _ => gvkString "" "" spec.kind
  | .ok gv => gvkString gv.group gv.version spec.kind

/-- `YamlFile.ResourceNames` (lines 215–221): `"%s (%s)"` of the name and
the GroupVersionKind of every stored resource, in stored order. -/
def YamlFile.ResourceNames (f : YamlFile) : List String :=
  f.resources.map fun spec => spec.name ++ " (" ++ groupVersionKindOf spec ++ ")"

/-- The deterministic remote store: a list of present keys.  `Get` succeeds
iff the key is present, `Create` fails with AlreadyExists iff the key is
present and otherwise inserts it, `Delete` removes the key and always
succeeds. -/
def storeAPI : RemoteAPI (List ResourceKey) where
  get s k := (if k ∈ s then none else some .notFound, s)
  create s k _ := if k ∈ s then (some .alreadyExists, s) else (none, k :: s)
  delete s k := (none, s.erase k)

/-- The keys of the create operations in a trace, in issue order. -/
def createdKeys : List Op → List ResourceKey
  | [] => []
  | .createOp k _ :: t => k :: createdKeys t
  | _ :: t => createdKeys t

/-- The successfully resolved keys of a resource list, in order. -/
def okKeys (rs : List Unstructured) : List ResourceKey :=
  rs.filterMap fun spec => (client spec).toOption

/-- All fields of two resources agree except possibly `ownerReferences`:
the frame relation of the engine's only mutation. -/
def sameExceptOwner (a b : Unstructured) : Prop :=
  a.apiVersion = b.apiVersion ∧ a.kind = b.kind ∧ a.ns = b.ns ∧
    a.name = b.name ∧ a.payload = b.payload

/-- Sequencing of two apply-loop runs: the semantics of running the loop on
a concatenated resource list. -/
def seqOut (ox : ApplyOut σ) (f : σ → ApplyOut σ) (ys : List Unstructured) :
    ApplyOut σ :=
  match ox.err with
  | some e => ⟨some e, ox.state, ox.trace, ox.resources ++ ys⟩
  | none =>
    let oy := f ox.state
    ⟨oy.err, oy.state, ox.trace ++ oy.trace, ox.resources ++ oy.resources⟩

/-- The trace blocks an error-free apply run may produce, per resource in
order: a lone existence check (skip) or an existence check followed by the
creation of the owner-adjusted object. -/
inductive Blocks (o : OwnerReference) : List Unstructured → List Op → Prop
  | nil : Blocks o [] []
  | skip {spec rest k t} : client spec = .ok k → Blocks o rest t →
      Blocks o (spec :: rest) (.getOp k :: t)
  | created {spec rest k t} : client spec = .ok k → Blocks o rest t →
      Blocks o (spec :: rest) (.getOp k :: .createOp k (applyOwner o spec) :: t)

/-- The decode stage of the parser (lines 268–281), over an abstract
per-document decoder `d` standing for `yaml.NewYAMLToJSONDecoder(...).Decode`:
a document that fails to decode is skipped (with a logged warning) and
consumption continues; a document that decodes is emitted.  The `read` stage
feeds the channel with the file's documents in file order and channels are
FIFO, so the stage is list consumption in order. -/
def decode {α : Type} (d : α → Except String Unstructured) :
    List α → List Unstructured
  | [] => []
  | buf :: rest =>
    match d buf with
    | .error _ => decode d rest
    | .ok spec => spec :: decode d rest

/-- `parse` (lines 229–238): run the read/decode pipeline over the file's
raw documents and collect the output channel into a list. -/
def parse {α : Type} (d : α → Except String Unstructured) (docs : List α) :
    List Unstructured :=
  decode d docs

/-- Spec-side characterization of parsing, following the specification's
words: the parsed sequence is exactly the successfully decoded documents,
in original relative order. -/
def parseSpec {α : Type} (d : α → Except String Unstructured)
    (docs : List α) : List Unstructured :=
  docs.filterMap fun b => (d b).toOption

/-- One engine call in a lifecycle: an Apply with some remote backend and
owner, or a Delete with some remote backend. -/
inductive EngineCall (σ : Type) where
  | applyC (api : RemoteAPI σ) (owner : OwnerReference) (s : σ)
  | deleteC (api : RemoteAPI σ) (s : σ)

/-- The engine state after one call. -/
def runCall {σ : Type} (f : YamlFile) : EngineCall σ → YamlFile
  | .applyC api o s => (YamlFile.Apply api f o s).2
  | .deleteC api s => (YamlFile.Delete api f s).2

/-- The engine state after a sequence of calls. -/
def runCalls {σ : Type} (f : YamlFile) : List (EngineCall σ) → YamlFile
  | [] => f
  | c :: cs => runCalls (runCall f c) cs

/-! ### The in-place reversal loop equals `List.reverse` -/

theorem revSwapLoop_size {α : Type} (a : Array α) (left right : Nat) :
    (revSwapLoop a left right).size = a.size := by
  unfold revSwapLoop
  split
  next h => rw [revSwapLoop_size]; exact Array.size_swap ..
  next => rfl
termination_by right - left
decreasing_by omega

theorem revSwapLoop_getElem? {α : Type} (a : Array α) (left right : Nat)
    (hsum : left + right + 1 = a.size) (i : Nat) :
    (revSwapLoop a left right)[i]? =
      if left ≤ i ∧ i ≤ right then a[left + right - i]? else a[i]? := by
  unfold revSwapLoop
  split
  next h =>
    have hsum' : (left + 1) + (right - 1) + 1 =
        (a.swap ⟨left, Nat.lt_trans h.1 h.2⟩ ⟨right, h.2⟩).size := by
      rw [Array.size_swap]; omega
    rw [revSwapLoop_getElem? _ _ _ hsum' i]
    have hswap : ∀ j : Nat,
        (a.swap ⟨left, Nat.lt_trans h.1 h.2⟩ ⟨right, h.2⟩)[j]? =
          if right = j then some a[left] else if left = j then some a[right]
          else a[j]? := by
      intro j
      rw [Array.getElem?_swap]
    by_cases hmid : left + 1 ≤ i ∧ i ≤ right - 1
    · have h1 : left + 1 + (right - 1) - i = left + right - i := by omega
      rw [if_pos hmid, h1, hswap, if_neg (by omega), if_neg (by omega),
        if_pos (by omega)]
    · rw [if_neg hmid, hswap]
      by_cases hl : i = left
      · subst hl
        rw [if_neg (by omega), if_pos rfl, if_pos (by omega)]
        have h2 : i + right - i = right := by omega
        rw [h2, Array.getElem?_eq_getElem h.2]
      · by_cases hr : i = right
        · subst hr
          rw [if_pos rfl, if_pos (by omega)]
          have h2 : left + i - i = left := by omega
          rw [h2, Array.getElem?_eq_getElem (Nat.lt_trans h.1 h.2)]
        · rw [if_neg (by omega), if_neg (by omega), if_neg (by omega)]
  next h =>
    have hnl : ¬ left < right := fun hlt => h ⟨hlt, by omega⟩
    by_cases hi : left ≤ i ∧ i ≤ right
    · have h2 : left + right - i = i := by omega
      rw [if_pos hi, h2]
    · rw [if_neg hi]
termination_by right - left
decreasing_by omega

theorem reverseCopy_eq_reverse {α : Type} (l : List α) :
    reverseCopy l = l.reverse := by
  rcases l with - | ⟨x, xs⟩
  · unfold reverseCopy revSwapLoop
    simp
  · apply List.ext_getElem?
    intro n
    show ((revSwapLoop (x :: xs).toArray 0 ((x :: xs).toArray.size - 1)).toList)[n]? = _
    rw [← Array.getElem?_eq_getElem?_toList]
    have hsz : (x :: xs).toArray.size = xs.length + 1 := by simp
    have hsum : 0 + ((x :: xs).toArray.size - 1) + 1 = (x :: xs).toArray.size := by
      rw [hsz]; omega
    rw [revSwapLoop_getElem? _ _ _ hsum n, hsz]
    by_cases hn : n < xs.length + 1
    · rw [if_pos (by omega)]
      have hidx : 0 + (xs.length + 1 - 1) - n = xs.length - n := by omega
      rw [hidx, List.getElem?_toArray,
        List.getElem?_reverse (by simpa using hn)]
      have hidx2 : (x :: xs).length - 1 - n = xs.length - n := by
        simp only [List.length_cons]; omega
      rw [hidx2]
    · rw [if_neg (by omega), List.getElem?_toArray,
        List.getElem?_eq_none (l := x :: xs)
          (by simp only [List.length_cons]; omega),
        List.getElem?_eq_none
          (by simp only [List.length_reverse, List.length_cons]; omega)]

/-! ### Apply-loop lemmas -/

theorem sameExceptOwner_refl (a : Unstructured) : sameExceptOwner a a :=
  ⟨rfl, rfl, rfl, rfl, rfl⟩

theorem sameExceptOwner_trans {a b c : Unstructured}
    (h1 : sameExceptOwner a b) (h2 : sameExceptOwner b c) :
    sameExceptOwner a c :=
  ⟨h1.1.trans h2.1, h1.2.1.trans h2.2.1, h1.2.2.1.trans h2.2.2.1,
    h1.2.2.2.1.trans h2.2.2.2.1, h1.2.2.2.2.trans h2.2.2.2.2⟩

theorem sameExceptOwner_applyOwner (o : OwnerReference) (spec : Unstructured) :
    sameExceptOwner spec (applyOwner o spec) := by
  unfold applyOwner
  split
  · exact sameExceptOwner_refl spec
  · exact ⟨rfl, rfl, rfl, rfl, rfl⟩

theorem client_eq_of_sameExceptOwner {a b : Unstructured}
    (h : sameExceptOwner a b) : client a = client b := by
  unfold client
  rw [h.1, h.2.1, h.2.2.1, h.2.2.2.1]

theorem client_applyOwner (o : OwnerReference) (spec : Unstructured) :
    client (applyOwner o spec) = client spec :=
  (client_eq_of_sameExceptOwner (sameExceptOwner_applyOwner o spec)).symm

theorem applyLoop_cons_resolutionErr {api : RemoteAPI σ} {o : OwnerReference}
    {spec : Unstructured} {rest : List Unstructured} {s : σ} {m : String}
    (hc : client spec = .error m) :
    applyLoop api o (spec :: rest) s =
      ⟨some (.resolution m), s, [], spec :: rest⟩ := by
  simp only [applyLoop, hc]

theorem applyLoop_cons_found {api : RemoteAPI σ} {o : OwnerReference}
    {spec : Unstructured} {rest : List Unstructured} {s s1 : σ}
    {k : ResourceKey} (hc : client spec = .ok k)
    (hg : api.get s k = (none, s1)) :
    applyLoop api o (spec :: rest) s =
      ⟨(applyLoop api o rest s1).err, (applyLoop api o rest s1).state,
        .getOp k :: (applyLoop api o rest s1).trace,
        spec :: (applyLoop api o rest s1).resources⟩ := by
  simp only [applyLoop, hc, hg]

theorem applyLoop_cons_getErr {api : RemoteAPI σ} {o : OwnerReference}
    {spec : Unstructured} {rest : List Unstructured} {s s1 : σ}
    {k : ResourceKey} {e : StatusErr} (hc : client spec = .ok k)
    (hg : api.get s k = (some e, s1)) (hnf : IsNotFound e = false) :
    applyLoop api o (spec :: rest) s =
      ⟨some (.remote e), s1, [.getOp k], spec :: rest⟩ := by
  simp only [applyLoop, hc, hg, hnf, Bool.false_eq_true, if_false]

theorem applyLoop_cons_created {api : RemoteAPI σ} {o : OwnerReference}
    {spec : Unstructured} {rest : List Unstructured} {s s1 s2 : σ}
    {k : ResourceKey} {e : StatusErr} (hc : client spec = .ok k)
    (hg : api.get s k = (some e, s1)) (hnf : IsNotFound e = true)
    (hcr : api.create s1 k (applyOwner o spec) = (none, s2)) :
    applyLoop api o (spec :: rest) s =
      ⟨(applyLoop api o rest s2).err, (applyLoop api o rest s2).state,
        .getOp k :: .createOp k (applyOwner o spec) ::
          (applyLoop api o rest s2).trace,
        applyOwner o spec :: (applyLoop api o rest s2).resources⟩ := by
  simp only [applyLoop, hc, hg, hnf, if_true, hcr]

theorem applyLoop_cons_alreadyExists {api : RemoteAPI σ} {o : OwnerReference}
    {spec : Unstructured} {rest : List Unstructured} {s s1 s2 : σ}
    {k : ResourceKey} {e ce : StatusErr} (hc : client spec = .ok k)
    (hg : api.get s k = (some e, s1)) (hnf : IsNotFound e = true)
    (hcr : api.create s1 k (applyOwner o spec) = (some ce, s2))
    (hae : IsAlreadyExists ce = true) :
    applyLoop api o (spec :: rest) s =
      ⟨(applyLoop api o rest s2).err, (applyLoop api o rest s2).state,
        .getOp k :: .createOp k (applyOwner o spec) ::
          (applyLoop api o rest s2).trace,
        applyOwner o spec :: (applyLoop api o rest s2).resources⟩ := by
  simp only [applyLoop, hc, hg, hnf, if_true, hcr, hae]

theorem applyLoop_cons_createErr {api : RemoteAPI σ} {o : OwnerReference}
    {spec : Unstructured} {rest : List Unstructured} {s s1 s2 : σ}
    {k : ResourceKey} {e ce : StatusErr} (hc : client spec = .ok k)
    (hg : api.get s k = (some e, s1)) (hnf : IsNotFound e = true)
    (hcr : api.create s1 k (applyOwner o spec) = (some ce, s2))
    (hae : IsAlreadyExists ce = false) :
    applyLoop api o (spec :: rest) s =
      ⟨some (.remote ce), s2, [.getOp k, .createOp k (applyOwner o spec)],
        applyOwner o spec :: rest⟩ := by
  simp only [applyLoop, hc, hg, hnf, if_true, hcr, hae, Bool.false_eq_true,
    if_false]

theorem deleteLoop_cons_resolutionErr {api : RemoteAPI σ}
    {spec : Unstructured} {rest : List Unstructured} {s : σ} {m : String}
    (hc : client spec = .error m) :
    deleteLoop api (spec :: rest) s = ⟨some (.resolution m), s, []⟩ := by
  simp only [deleteLoop, hc]

theorem deleteLoop_cons_ok {api : RemoteAPI σ}
    {spec : Unstructured} {rest : List Unstructured} {s : σ}
    {k : ResourceKey} (hc : client spec = .ok k) :
    deleteLoop api (spec :: rest) s =
      ⟨(deleteLoop api rest (api.delete s k).2).err,
        (deleteLoop api rest (api.delete s k).2).state,
        .deleteOp k :: (deleteLoop api rest (api.delete s k).2).trace⟩ := by
  simp only [deleteLoop, hc]

theorem applyLoop_append (api : RemoteAPI σ) (o : OwnerReference)
    (xs ys : List Unstructured) (s : σ) :
    applyLoop api o (xs ++ ys) s =
      seqOut (applyLoop api o xs s) (applyLoop api o ys) ys := by
  induction xs generalizing s with
  | nil => simp [applyLoop, seqOut]
  | cons spec xs ih =>
    rw [List.cons_append]
    cases hc : client spec with
    | error m =>
      rw [applyLoop_cons_resolutionErr hc, applyLoop_cons_resolutionErr hc]
      simp [seqOut]
    | ok k =>
      rcases hg : api.get s k with ⟨g, s1⟩
      cases g with
      | none =>
        rw [applyLoop_cons_found hc hg, applyLoop_cons_found hc hg, ih]
        cases he : (applyLoop api o xs s1).err <;> simp [seqOut, he]
      | some e =>
        cases hnf : IsNotFound e with
        | false =>
          rw [applyLoop_cons_getErr hc hg hnf, applyLoop_cons_getErr hc hg hnf]
          simp [seqOut]
        | true =>
          rcases hcr : api.create s1 k (applyOwner o spec) with ⟨c, s2⟩
          cases c with
          | none =>
            rw [applyLoop_cons_created hc hg hnf hcr,
              applyLoop_cons_created hc hg hnf hcr, ih]
            cases he : (applyLoop api o xs s2).err <;> simp [seqOut, he]
          | some ce =>
            cases hae : IsAlreadyExists ce with
            | false =>
              rw [applyLoop_cons_createErr hc hg hnf hcr hae,
                applyLoop_cons_createErr hc hg hnf hcr hae]
              simp [seqOut]
            | true =>
              rw [applyLoop_cons_alreadyExists hc hg hnf hcr hae,
                applyLoop_cons_alreadyExists hc hg hnf hcr hae, ih]
              cases he : (applyLoop api o xs s2).err <;> simp [seqOut, he]

theorem applyLoop_frame (api : RemoteAPI σ) (o : OwnerReference)
    (rs : List Unstructured) (s : σ) :
    List.Forall₂ sameExceptOwner rs (applyLoop api o rs s).resources := by
  induction rs generalizing s with
  | nil => exact .nil
  | cons spec rest ih =>
    have hrefl : List.Forall₂ sameExceptOwner rest rest :=
      List.forall₂_same.mpr fun x _ => sameExceptOwner_refl x
    cases hc : client spec with
    | error m =>
      rw [applyLoop_cons_resolutionErr hc]
      exact .cons (sameExceptOwner_refl spec) hrefl
    | ok k =>
      rcases hg : api.get s k with ⟨g, s1⟩
      cases g with
      | none =>
        rw [applyLoop_cons_found hc hg]
        exact .cons (sameExceptOwner_refl spec) (ih s1)
      | some e =>
        cases hnf : IsNotFound e with
        | false =>
          rw [applyLoop_cons_getErr hc hg hnf]
          exact .cons (sameExceptOwner_refl spec) hrefl
        | true =>
          rcases hcr : api.create s1 k (applyOwner o spec) with ⟨c, s2⟩
          cases c with
          | none =>
            rw [applyLoop_cons_created hc hg hnf hcr]
            exact .cons (sameExceptOwner_applyOwner o spec) (ih s2)
          | some ce =>
            cases hae : IsAlreadyExists ce with
            | false =>
              rw [applyLoop_cons_createErr hc hg hnf hcr hae]
              exact .cons (sameExceptOwner_applyOwner o spec) hrefl
            | true =>
              rw [applyLoop_cons_alreadyExists hc hg hnf hcr hae]
              exact .cons (sameExceptOwner_applyOwner o spec) (ih s2)

theorem applyLoop_blocks (api : RemoteAPI σ) (o : OwnerReference)
    (rs : List Unstructured) (s : σ)
    (h : (applyLoop api o rs s).err = none) :
    Blocks o rs (applyLoop api o rs s).trace := by
  induction rs generalizing s with
  | nil => exact .nil
  | cons spec rest ih =>
    cases hc : client spec with
    | error m => rw [applyLoop_cons_resolutionErr hc] at h ⊢; cases h
    | ok k =>
      rcases hg : api.get s k with ⟨g, s1⟩
      cases g with
      | none =>
        rw [applyLoop_cons_found hc hg] at h ⊢
        exact .skip hc (ih s1 h)
      | some e =>
        cases hnf : IsNotFound e with
        | false => rw [applyLoop_cons_getErr hc hg hnf] at h ⊢; cases h
        | true =>
          rcases hcr : api.create s1 k (applyOwner o spec) with ⟨c, s2⟩
          cases c with
          | none =>
            rw [applyLoop_cons_created hc hg hnf hcr] at h ⊢
            exact .created hc (ih s2 h)
          | some ce =>
            cases hae : IsAlreadyExists ce with
            | false =>
              rw [applyLoop_cons_createErr hc hg hnf hcr hae] at h ⊢
              cases h
            | true =>
              rw [applyLoop_cons_alreadyExists hc hg hnf hcr hae] at h ⊢
              exact .created hc (ih s2 h)

theorem applyLoop_createOp_mem (api : RemoteAPI σ) (o : OwnerReference)
    (rs : List Unstructured) (s : σ) {k : ResourceKey} {obj : Unstructured}
    (h : Op.createOp k obj ∈ (applyLoop api o rs s).trace) :
    ∃ spec ∈ rs, obj = applyOwner o spec ∧ client spec = .ok k := by
  induction rs generalizing s with
  | nil => simp [applyLoop] at h
  | cons spec rest ih =>
    cases hc : client spec with
    | error m =>
      rw [applyLoop_cons_resolutionErr hc] at h
      simp at h
    | ok k0 =>
      rcases hg : api.get s k0 with ⟨g, s1⟩
      cases g with
      | none =>
        rw [applyLoop_cons_found hc hg] at h
        simp only [List.mem_cons] at h
        rcases h with h | h
        · cases h
        · obtain ⟨spec0, hm, he⟩ := ih s1 h
          exact ⟨spec0, .tail _ hm, he⟩
      | some e =>
        cases hnf : IsNotFound e with
        | false =>
          rw [applyLoop_cons_getErr hc hg hnf] at h
          simp at h
        | true =>
          rcases hcr : api.create s1 k0 (applyOwner o spec) with ⟨c, s2⟩
          cases c with
          | none =>
            rw [applyLoop_cons_created hc hg hnf hcr] at h
            simp only [List.mem_cons] at h
            rcases h with h | h | h
            · cases h
            · cases h; exact ⟨spec, .head _, rfl, hc⟩
            · obtain ⟨spec0, hm, he⟩ := ih s2 h
              exact ⟨spec0, .tail _ hm, he⟩
          | some ce =>
            cases hae : IsAlreadyExists ce with
            | false =>
              rw [applyLoop_cons_createErr hc hg hnf hcr hae] at h
              simp only [List.mem_cons, List.not_mem_nil, or_false] at h
              rcases h with h | h
              · cases h
              · cases h; exact ⟨spec, .head _, rfl, hc⟩
            | true =>
              rw [applyLoop_cons_alreadyExists hc hg hnf hcr hae] at h
              simp only [List.mem_cons] at h
              rcases h with h | h | h
              · cases h
              · cases h; exact ⟨spec, .head _, rfl, hc⟩
              · obtain ⟨spec0, hm, he⟩ := ih s2 h
                exact ⟨spec0, .tail _ hm, he⟩

/-! ### Deterministic-store lemmas -/

theorem client_toOption_eq {spec : Unstructured} {k : ResourceKey} :
    (client spec).toOption = some k ↔ client spec = .ok k := by
  cases hc : client spec <;> simp [Except.toOption]

theorem mem_okKeys_of {rs : List Unstructured} {spec : Unstructured}
    {k : ResourceKey} (hm : spec ∈ rs) (hc : client spec = .ok k) :
    k ∈ okKeys rs := by
  unfold okKeys
  exact List.mem_filterMap.mpr ⟨spec, hm, client_toOption_eq.mpr hc⟩

theorem forall2_mem_right {α β : Type} {R : α → β → Prop}
    {l1 : List α} {l2 : List β} (h : List.Forall₂ R l1 l2) :
    ∀ b ∈ l2, ∃ a ∈ l1, R a b := by
  induction h with
  | nil => intro b hb; cases hb
  | cons hR _ ih =>
    intro b hb
    cases hb with
    | head => exact ⟨_, .head _, hR⟩
    | tail _ hb =>
      obtain ⟨a, ha, hab⟩ := ih _ hb
      exact ⟨a, .tail _ ha, hab⟩

theorem createdKeys_getOp (k : ResourceKey) (t : List Op) :
    createdKeys (.getOp k :: t) = createdKeys t := rfl

theorem createdKeys_createOp (k : ResourceKey) (obj : Unstructured)
    (t : List Op) : createdKeys (.createOp k obj :: t) = k :: createdKeys t :=
  rfl

theorem storeAPI_get_mem {s : List ResourceKey} {k : ResourceKey}
    (h : k ∈ s) : storeAPI.get s k = (none, s) := by
  simp [storeAPI, h]

theorem storeAPI_get_not_mem {s : List ResourceKey} {k : ResourceKey}
    (h : k ∉ s) : storeAPI.get s k = (some .notFound, s) := by
  simp [storeAPI, h]

theorem storeAPI_create_not_mem {s : List ResourceKey} {k : ResourceKey}
    {obj : Unstructured} (h : k ∉ s) :
    storeAPI.create s k obj = (none, k :: s) := by
  simp [storeAPI, h]

/-- A run of the apply loop against the deterministic store, when every
resource resolves: no error, the final store holds exactly the old keys and
the manifest keys, and each absent manifest key is created exactly once. -/
theorem applyLoop_store_run (o : OwnerReference) (rs : List Unstructured)
    (s : List ResourceKey)
    (hres : ∀ spec ∈ rs, (client spec).isOk = true) :
    (applyLoop storeAPI o rs s).err = none ∧
      (∀ k, k ∈ (applyLoop storeAPI o rs s).state ↔
        k ∈ okKeys rs ∨ k ∈ s) ∧
      (∀ k, (createdKeys (applyLoop storeAPI o rs s).trace).count k =
        if k ∈ okKeys rs ∧ k ∉ s then 1 else 0) := by
  induction rs generalizing s with
  | nil =>
    refine ⟨rfl, fun k => by simp [applyLoop, okKeys], fun k => by
      simp [applyLoop, createdKeys, okKeys]⟩
  | cons spec rest ih =>
    have hspec := hres spec (.head _)
    obtain ⟨k0, hc⟩ : ∃ k0, client spec = .ok k0 := by
      cases hcc : client spec
      · rw [hcc] at hspec; cases hspec
      · exact ⟨_, rfl⟩
    have hrest : ∀ s ∈ rest, (client s).isOk = true :=
      fun x hx => hres x (.tail _ hx)
    have hok : okKeys (spec :: rest) = k0 :: okKeys rest := by
      unfold okKeys
      rw [List.filterMap_cons]
      simp [hc, Except.toOption]
    by_cases hmem : k0 ∈ s
    · rw [applyLoop_cons_found hc (storeAPI_get_mem hmem)]
      obtain ⟨ihe, ihs, ihc⟩ := ih s hrest
      refine ⟨ihe, fun k => ?_, fun k => ?_⟩
      · show k ∈ (applyLoop storeAPI o rest s).state ↔ _
        rw [ihs k, hok]
        simp only [List.mem_cons]
        constructor
        · rintro (h | h)
          · exact .inl (.inr h)
          · exact .inr h
        · rintro ((rfl | h) | h)
          · exact .inr hmem
          · exact .inl h
          · exact .inr h
      · show (createdKeys (.getOp k0 ::
            (applyLoop storeAPI o rest s).trace)).count k = _
        rw [createdKeys_getOp, ihc k, hok]
        by_cases hk : k = k0
        · subst hk
          rw [if_neg (fun h => h.2 hmem), if_neg (fun h => h.2 hmem)]
        · by_cases hr : k ∈ okKeys rest ∧ k ∉ s
          · rw [if_pos hr, if_pos ⟨.tail _ hr.1, hr.2⟩]
          · have h3 : ¬ (k ∈ k0 :: okKeys rest ∧ k ∉ s) := by
              intro hx
              cases hx.1 with
              | head => exact hk rfl
              | tail _ h1 => exact hr ⟨h1, hx.2⟩
            rw [if_neg hr, if_neg h3]
    · rw [applyLoop_cons_created hc (storeAPI_get_not_mem hmem) rfl
        (storeAPI_create_not_mem hmem)]
      obtain ⟨ihe, ihs, ihc⟩ := ih (k0 :: s) hrest
      refine ⟨ihe, fun k => ?_, fun k => ?_⟩
      · show k ∈ (applyLoop storeAPI o rest (k0 :: s)).state ↔ _
        rw [ihs k, hok]
        simp only [List.mem_cons]
        tauto
      · show (createdKeys (.getOp k0 :: .createOp k0 (applyOwner o spec) ::
            (applyLoop storeAPI o rest (k0 :: s)).trace)).count k = _
        rw [createdKeys_getOp, createdKeys_createOp, List.count_cons,
          ihc k, hok]
        by_cases hk : k = k0
        · subst hk
          have h1 : ¬ (k ∈ okKeys rest ∧ k ∉ k :: s) :=
            fun h => h.2 (.head _)
          rw [if_neg h1, if_pos (c := (k == k) = true) (by simp),
            if_pos (⟨List.Mem.head _, hmem⟩ : k ∈ k :: okKeys rest ∧ k ∉ s)]
        · rw [if_neg (c := (k0 == k) = true)
            (by simp only [beq_iff_eq]; exact fun h => hk h.symm),
            Nat.add_zero]
          by_cases hr : k ∈ okKeys rest ∧ k ∉ s
          · rw [if_pos ⟨hr.1, fun hm => by
                cases hm with
                | head => exact hk rfl
                | tail _ hm => exact hr.2 hm⟩,
              if_pos ⟨.tail _ hr.1, hr.2⟩]
          · have h2 : ¬ (k ∈ okKeys rest ∧ k ∉ k0 :: s) := by
              intro hx
              exact hr ⟨hx.1, fun hm => hx.2 (.tail _ hm)⟩
            have h3 : ¬ (k ∈ k0 :: okKeys rest ∧ k ∉ s) := by
              intro hx
              cases hx.1 with
              | head => exact hk rfl
              | tail _ h1 => exact hr ⟨h1, hx.2⟩
            rw [if_neg h2, if_neg h3]

/-- A run of the apply loop against the deterministic store in which every
resource is already present: every resource is skipped, nothing is created,
the store and the stored resources are unchanged, and no error occurs. -/
theorem applyLoop_store_skip_all (o : OwnerReference)
    (rs : List Unstructured) (s : List ResourceKey)
    (h : ∀ spec ∈ rs, ∃ k, client spec = .ok k ∧ k ∈ s) :
    (applyLoop storeAPI o rs s).err = none ∧
      (applyLoop storeAPI o rs s).state = s ∧
      createdKeys (applyLoop storeAPI o rs s).trace = [] ∧
      (applyLoop storeAPI o rs s).resources = rs := by
  induction rs with
  | nil => exact ⟨rfl, rfl, rfl, rfl⟩
  | cons spec rest ih =>
    obtain ⟨k0, hc, hmem⟩ := h spec (.head _)
    rw [applyLoop_cons_found hc (storeAPI_get_mem hmem)]
    obtain ⟨ihe, ihs, ihc, ihr⟩ := ih fun x hx => h x (.tail _ hx)
    exact ⟨ihe, ihs, by
      show createdKeys (.getOp k0 :: _) = []
      rw [createdKeys_getOp]
      exact ihc, by rw [ihr]⟩

/-! ### Delete-loop lemmas -/

/-- The delete operation a resource contributes to the trace, when it
resolves. -/
def deleteOpOf (spec : Unstructured) : Option Op :=
  (client spec).toOption.map Op.deleteOp

theorem deleteLoop_all_ok (api : RemoteAPI σ) (rs : List Unstructured)
    (s : σ) (h : ∀ spec ∈ rs, (client spec).isOk = true) :
    (deleteLoop api rs s).err = none ∧
      (deleteLoop api rs s).trace = rs.filterMap deleteOpOf := by
  induction rs generalizing s with
  | nil => exact ⟨rfl, rfl⟩
  | cons spec rest ih =>
    have hspec := h spec (.head _)
    obtain ⟨k0, hc⟩ : ∃ k0, client spec = .ok k0 := by
      cases hcc : client spec
      · rw [hcc] at hspec; cases hspec
      · exact ⟨_, rfl⟩
    rw [deleteLoop_cons_ok hc]
    obtain ⟨ihe, iht⟩ := ih (api.delete s k0).2 fun x hx => h x (.tail _ hx)
    refine ⟨ihe, ?_⟩
    rw [List.filterMap_cons]
    show Op.deleteOp k0 :: (deleteLoop api rest (api.delete s k0).2).trace = _
    rw [iht]
    simp [deleteOpOf, hc, Except.toOption]

theorem deleteLoop_err_shape (api : RemoteAPI σ) (rs : List Unstructured)
    (s : σ) :
    (deleteLoop api rs s).err = none ∨
      ∃ m, (deleteLoop api rs s).err = some (.resolution m) := by
  induction rs generalizing s with
  | nil => exact .inl rfl
  | cons spec rest ih =>
    cases hc : client spec with
    | error m =>
      rw [deleteLoop_cons_resolutionErr hc]
      exact .inr ⟨m, rfl⟩
    | ok k =>
      rw [deleteLoop_cons_ok hc]
      exact ih (api.delete s k).2

theorem deleteLoop_abort (api : RemoteAPI σ) (xs : List Unstructured)
    (bad : Unstructured) (ys : List Unstructured) (s : σ) {m : String}
    (hxs : ∀ spec ∈ xs, (client spec).isOk = true)
    (hbad : client bad = .error m) :
    (deleteLoop api (xs ++ bad :: ys) s).err = some (.resolution m) ∧
      (deleteLoop api (xs ++ bad :: ys) s).trace = xs.filterMap deleteOpOf := by
  induction xs generalizing s with
  | nil =>
    rw [List.nil_append, deleteLoop_cons_resolutionErr hbad]
    exact ⟨rfl, rfl⟩
  | cons spec rest ih =>
    have hspec := hxs spec (.head _)
    obtain ⟨k0, hc⟩ : ∃ k0, client spec = .ok k0 := by
      cases hcc : client spec
      · rw [hcc] at hspec; cases hspec
      · exact ⟨_, rfl⟩
    rw [List.cons_append, deleteLoop_cons_ok hc]
    obtain ⟨ihe, iht⟩ := ih (api.delete s k0).2 fun x hx => hxs x (.tail _ hx)
    refine ⟨ihe, ?_⟩
    rw [List.filterMap_cons]
    show Op.deleteOp k0 :: _ = _
    rw [iht]
    simp [deleteOpOf, hc, Except.toOption]

theorem forall2_sameExceptOwner_trans {l1 l2 l3 : List Unstructured}
    (h12 : List.Forall₂ sameExceptOwner l1 l2)
    (h23 : List.Forall₂ sameExceptOwner l2 l3) :
    List.Forall₂ sameExceptOwner l1 l3 := by
  induction h12 generalizing l3 with
  | nil => cases h23; exact .nil
  | cons hR _ ih =>
    cases h23 with
    | cons hR2 h23 => exact .cons (sameExceptOwner_trans hR hR2) (ih h23)

theorem decode_eq_parseSpec {α : Type} (d : α → Except String Unstructured)
    (docs : List α) : decode d docs = parseSpec d docs := by
  induction docs with
  | nil => rfl
  | cons buf rest ih =>
    unfold parseSpec at ih ⊢
    rw [List.filterMap_cons]
    cases hd : d buf with
    | error e => simp only [decode, hd, Except.toOption, ih]
    | ok spec => simp only [decode, hd, Except.toOption, ih]

theorem map_name_eq_of_forall2 {l l' : List Unstructured}
    (h : List.Forall₂ sameExceptOwner l l') :
    l'.map (fun spec => spec.name ++ " (" ++ groupVersionKindOf spec ++ ")") =
      l.map (fun spec => spec.name ++ " (" ++ groupVersionKindOf spec ++ ")") := by
  induction h with
  | nil => rfl
  | cons hR _ ih =>
    simp only [List.map_cons, ih]
    congr 1
    unfold groupVersionKindOf
    rw [hR.1, hR.2.1, hR.2.2.2.1]

/-! ### Concrete fixtures used by witnesses -/

/-- A caller-supplied owner reference. -/
def wOwner : OwnerReference :=
  ⟨"serving.knative.dev/v1alpha1", "Install", "inst", "uid-1"⟩

/-- A cluster-scoped resource (kind Namespace). -/
def wRes1 : Unstructured := ⟨"v1", "Namespace", "", "knative-serving", [], []⟩

/-- A namespace-scoped resource (kind Deployment). -/
def wRes2 : Unstructured := ⟨"apps/v1", "Deployment", "default", "controller", [], []⟩

/-- Another namespace-scoped resource (kind Service). -/
def wRes3 : Unstructured := ⟨"v1", "Service", "default", "activator", [], []⟩

/-- A resource whose apiVersion does not parse into group/version. -/
def wBad : Unstructured := ⟨"a/b/c", "Widget", "", "bad", [], []⟩

/-- A two-resource manifest engine. -/
def wFile : YamlFile := ⟨"knative-serving.yaml", [wRes1, wRes2]⟩

/-- An engine whose first resource fails endpoint resolution. -/
def wBadFile : YamlFile := ⟨"bad.yaml", [wBad, wRes1]⟩

/-- A remote on which every existence check misses and every creation fails
with a non-AlreadyExists error. -/
def failAPI : RemoteAPI Unit where
  get _ _ := (some .notFound, ())
  create _ _ _ := (some (.other 7), ())
  delete _ _ := (none, ())

/-! ### Claims -/

/-- C6: For every kind string, the pluralization function lower-cases the
kind and then: if the result ends in "s" it appends "es"; else if it ends
in "policy" it strips the trailing "y" (its last character) and appends
"ies"; else it appends "s".  In particular kind "Service" maps to
"services", "NetworkPolicy" to "networkpolicies", and "Ingress" to
"ingresses". -/
theorem pluralize_rule :
    (∀ kind : String,
      pluralize kind =
        (let ret := toLowerGo kind
         if hasSuffixGo ret "s" then ret ++ "es"
         else if hasSuffixGo ret "policy" then
           String.mk ret.data.dropLast ++ "ies"
         else ret ++ "s")) ∧
    pluralize "Service" = "services" ∧
    pluralize "NetworkPolicy" = "networkpolicies" ∧
    pluralize "Ingress" = "ingresses" :=
  ⟨fun _ => rfl, by decide, by decide, by decide⟩

/-- C7: Parsing yields exactly the sequence of documents that decode
successfully, in their original relative file order: a failing document is
skipped (not fatal) and no well-formed document is dropped or reordered.
In particular one invalid document between two valid ones yields exactly
the two valid resources in order. -/
theorem parse_decode_tolerance :
    (∀ (α : Type) (d : α → Except String Unstructured) (docs : List α),
      parse d docs = parseSpec d docs) ∧
    (∀ (α : Type) (d : α → Except String Unstructured)
      (d1 dbad d2 : α) (r1 r2 : Unstructured) (e : String),
      d d1 = .ok r1 → d dbad = .error e → d d2 = .ok r2 →
      parse d [d1, dbad, d2] = [r1, r2]) := by
  constructor
  · intro α d docs
    exact decode_eq_parseSpec d docs
  · intro α d d1 dbad d2 r1 r2 e h1 hb h2
    show decode d [d1, dbad, d2] = [r1, r2]
    simp only [decode, h1, hb, h2]

/-- Decoder fixture for the C7 witness: document 0 and 2 decode, document 1
fails. -/
def wDecoder : Nat → Except String Unstructured
  | 0 => .ok wRes1
  | 1 => .error "unable to decode"
  | _ => .ok wRes2

/-- Witness for C7 at a concrete three-document manifest. -/
theorem parse_decode_tolerance_witness :
    parse wDecoder [0, 1, 2] = [wRes1, wRes2] :=
  parse_decode_tolerance.2 Nat wDecoder 0 1 2 wRes1 wRes2
    "unable to decode" rfl rfl rfl

/-- C4: a resource that is about to be created receives the caller-supplied
owner reference iff its kind, compared case-insensitively, is not in the
fixed set of cluster-scoped kinds; those kinds are created exactly as
stored, with no owner reference injected. -/
theorem apply_ownership_policy :
    (∀ (σ : Type) (api : RemoteAPI σ) (o : OwnerReference)
      (rs : List Unstructured) (s : σ) (k : ResourceKey)
      (obj : Unstructured),
      Op.createOp k obj ∈ (applyLoop api o rs s).trace →
      ∃ spec ∈ rs, obj = applyOwner o spec) ∧
    (∀ (o : OwnerReference) (spec : Unstructured),
      (isClusterScoped spec.kind = false →
        applyOwner o spec = { spec with ownerReferences := [o] }) ∧
      (isClusterScoped spec.kind = true → applyOwner o spec = spec)) ∧
    (∀ kind : String, isClusterScoped kind = true ↔
      toLowerGo kind ∈ (["namespace", "clusterrole", "clusterrolebinding",
        "customresourcedefinition"] : List String)) := by
  refine ⟨?_, ?_, ?_⟩
  · intro σ api o rs s k obj h
    obtain ⟨spec, hm, he, -⟩ := applyLoop_createOp_mem api o rs s h
    exact ⟨spec, hm, he⟩
  · intro o spec
    constructor
    · intro h
      unfold applyOwner
      rw [h]
      simp
    · intro h
      unfold applyOwner
      rw [h]
      simp
  · intro kind
    unfold isClusterScoped
    simp only [Bool.or_eq_true, beq_iff_eq, List.mem_cons,
      List.not_mem_nil, or_false]
    tauto

/-- Witness for C4: in a run that creates the Deployment-kind resource, the
created object is the stored resource with the owner reference attached. -/
theorem apply_ownership_policy_witness :
    ∃ spec ∈ [wRes2], applyOwner wOwner wRes2 = applyOwner wOwner spec :=
  apply_ownership_policy.1 (List ResourceKey) storeAPI wOwner [wRes2] []
    ⟨"apps", "v1", "deployments", "default", "controller"⟩
    (applyOwner wOwner wRes2) (by decide)

/-- C5: Delete ignores the outcome of every remote delete request — for any
remote behaviour, when every resource resolves it attempts one delete per
resource, over the whole (reversed) list, and returns nil — and the only
error it can return is a resolution error from parsing a resource's
apiVersion, which aborts the call after the deletes of the resources
preceding it in deletion order. -/
theorem delete_swallows_remote_errors :
    (∀ (σ : Type) (api : RemoteAPI σ) (f : YamlFile) (s : σ),
      (∀ spec ∈ f.resources, (client spec).isOk = true) →
      (YamlFile.Delete api f s).1.err = none ∧
      (YamlFile.Delete api f s).1.trace =
        f.resources.reverse.filterMap deleteOpOf) ∧
    (∀ (σ : Type) (api : RemoteAPI σ) (f : YamlFile) (s : σ)
      (er : EngineErr),
      (YamlFile.Delete api f s).1.err = some er →
      ∃ m, er = .resolution m) ∧
    (∀ (σ : Type) (api : RemoteAPI σ) (f : YamlFile) (s : σ)
      (xs : List Unstructured) (bad : Unstructured)
      (ys : List Unstructured) (m : String),
      reverseCopy f.resources = xs ++ bad :: ys →
      (∀ spec ∈ xs, (client spec).isOk = true) →
      client bad = .error m →
      (YamlFile.Delete api f s).1.err = some (.resolution m) ∧
      (YamlFile.Delete api f s).1.trace = xs.filterMap deleteOpOf) := by
  refine ⟨?_, ?_, ?_⟩
  · intro σ api f s h
    show (deleteLoop api (reverseCopy f.resources) s).err = none ∧
      (deleteLoop api (reverseCopy f.resources) s).trace = _
    rw [reverseCopy_eq_reverse]
    exact deleteLoop_all_ok api f.resources.reverse s
      fun spec hm => h spec (List.mem_reverse.mp hm)
  · intro σ api f s er h
    rcases deleteLoop_err_shape api (reverseCopy f.resources) s with hn | ⟨m, hm⟩
    · rw [show (YamlFile.Delete api f s).1.err =
          (deleteLoop api (reverseCopy f.resources) s).err from rfl, hn] at h
      cases h
    · rw [show (YamlFile.Delete api f s).1.err =
          (deleteLoop api (reverseCopy f.resources) s).err from rfl, hm] at h
      cases h
      exact ⟨m, rfl⟩
  · intro σ api f s xs bad ys m hrev hxs hbad
    show (deleteLoop api (reverseCopy f.resources) s).err = _ ∧
      (deleteLoop api (reverseCopy f.resources) s).trace = _
    rw [hrev]
    exact deleteLoop_abort api xs bad ys s hxs hbad

/-- Witness for C5: a concrete manifest deleted against a remote that fails
every delete, and a concrete manifest that aborts on resolution. -/
theorem delete_swallows_remote_errors_witness :
    ((YamlFile.Delete failAPI wFile ()).1.err = none ∧
      (YamlFile.Delete failAPI wFile ()).1.trace =
        wFile.resources.reverse.filterMap deleteOpOf) ∧
    ((YamlFile.Delete failAPI wBadFile ()).1.err =
        some (.resolution "unexpected GroupVersion string: a/b/c") ∧
      (YamlFile.Delete failAPI wBadFile ()).1.trace =
        [wRes1].filterMap deleteOpOf) :=
  ⟨delete_swallows_remote_errors.1 Unit failAPI wFile () (by decide),
    delete_swallows_remote_errors.2.2 Unit failAPI wBadFile () [wRes1] wBad
      [] "unexpected GroupVersion string: a/b/c"
      (by rw [reverseCopy_eq_reverse]; decide) (by decide) (by decide)⟩

/-- The resolved key of `wRes1`. -/
def wKey1 : ResourceKey := ⟨"", "v1", "namespaces", "", "knative-serving"⟩

/-- The resolved key of `wRes2`. -/
def wKey2 : ResourceKey := ⟨"apps", "v1", "deployments", "default", "controller"⟩

/-- The resolved key of `wRes3`. -/
def wKey3 : ResourceKey := ⟨"", "v1", "services", "default", "activator"⟩

/-- C2: for parsed resources [A, B, C] in file order, Apply issues its
per-resource remote operations (existence check, then create) in the order
A, B, C — shown against the deterministic store from an empty remote, where
every resource is checked and then created — and Delete issues its delete
requests in the exact reverse order C, B, A, under any remote behaviour. -/
theorem apply_delete_order (nm : String) (A B C : Unstructured)
    (kA kB kC : ResourceKey)
    (hA : client A = .ok kA) (hB : client B = .ok kB)
    (hC : client C = .ok kC)
    (hAB : kA ≠ kB) (hAC : kA ≠ kC) (hBC : kB ≠ kC) (o : OwnerReference) :
    (YamlFile.Apply storeAPI ⟨nm, [A, B, C]⟩ o []).1.trace =
      [.getOp kA, .createOp kA (applyOwner o A),
       .getOp kB, .createOp kB (applyOwner o B),
       .getOp kC, .createOp kC (applyOwner o C)] ∧
    (∀ (σ : Type) (api : RemoteAPI σ) (s : σ),
      (YamlFile.Delete api ⟨nm, [A, B, C]⟩ s).1.trace =
        [.deleteOp kC, .deleteOp kB, .deleteOp kA]) := by
  constructor
  · show (applyLoop storeAPI o [A, B, C] []).trace = _
    have h1 : kA ∉ ([] : List ResourceKey) := List.not_mem_nil kA
    rw [applyLoop_cons_created hA (storeAPI_get_not_mem h1) rfl
      (storeAPI_create_not_mem h1)]
    have h2 : kB ∉ [kA] := by
      intro hm
      cases hm with
      | head => exact hAB rfl
      | tail _ hm => cases hm
    rw [applyLoop_cons_created hB (storeAPI_get_not_mem h2) rfl
      (storeAPI_create_not_mem h2)]
    have h3 : kC ∉ [kB, kA] := by
      intro hm
      cases hm with
      | head => exact hBC rfl
      | tail _ hm =>
        cases hm with
        | head => exact hAC rfl
        | tail _ hm => cases hm
    rw [applyLoop_cons_created hC (storeAPI_get_not_mem h3) rfl
      (storeAPI_create_not_mem h3)]
    rfl
  · intro σ api s
    show (deleteLoop api (reverseCopy [A, B, C]) s).trace = _
    rw [reverseCopy_eq_reverse,
      show ([A, B, C] : List Unstructured).reverse = [C, B, A] from rfl,
      deleteLoop_cons_ok hC, deleteLoop_cons_ok hB, deleteLoop_cons_ok hA]
    rfl

/-- Witness for C2 on a concrete three-resource manifest. -/
theorem apply_delete_order_witness :
    (YamlFile.Apply storeAPI ⟨"f", [wRes1, wRes2, wRes3]⟩ wOwner []).1.trace =
      [.getOp wKey1, .createOp wKey1 (applyOwner wOwner wRes1),
       .getOp wKey2, .createOp wKey2 (applyOwner wOwner wRes2),
       .getOp wKey3, .createOp wKey3 (applyOwner wOwner wRes3)] ∧
    (YamlFile.Delete failAPI ⟨"f", [wRes1, wRes2, wRes3]⟩ ()).1.trace =
      [.deleteOp wKey3, .deleteOp wKey2, .deleteOp wKey1] := by
  have h := apply_delete_order "f" wRes1 wRes2 wRes3 wKey1 wKey2 wKey3
    (by decide) (by decide) (by decide) (by decide) (by decide) (by decide)
    wOwner
  exact ⟨h.1, h.2 Unit failAPI ()⟩

/-- C3: if, after an error-free prefix, the creation of the next resource
fails with an error other than already-exists, Apply returns that error
immediately: the prefix was fully processed (its trace consists of
per-resource blocks), the trace contains no operation for any later
resource, and created resources are not rolled back (no delete is issued
and the updated resource list keeps the prefix); a create failing with
already-exists is instead treated as success and iteration continues with
the remaining resources. -/
theorem apply_partial_failure (σ : Type) (api : RemoteAPI σ)
    (o : OwnerReference) (pre post : List Unstructured)
    (spec : Unstructured) (s0 s2 s3 : σ) (k : ResourceKey)
    (e ce : StatusErr)
    (hpre : (applyLoop api o pre s0).err = none)
    (hc : client spec = .ok k)
    (hg : api.get (applyLoop api o pre s0).state k = (some e, s2))
    (hnf : IsNotFound e = true)
    (hcr : api.create s2 k (applyOwner o spec) = (some ce, s3)) :
    Blocks o pre (applyLoop api o pre s0).trace ∧
    (IsAlreadyExists ce = false →
      applyLoop api o (pre ++ spec :: post) s0 =
        ⟨some (.remote ce), s3,
          (applyLoop api o pre s0).trace ++
            [.getOp k, .createOp k (applyOwner o spec)],
          (applyLoop api o pre s0).resources ++
            applyOwner o spec :: post⟩) ∧
    (IsAlreadyExists ce = true →
      applyLoop api o (pre ++ spec :: post) s0 =
        ⟨(applyLoop api o post s3).err, (applyLoop api o post s3).state,
          (applyLoop api o pre s0).trace ++ .getOp k ::
            .createOp k (applyOwner o spec) ::
            (applyLoop api o post s3).trace,
          (applyLoop api o pre s0).resources ++ applyOwner o spec ::
            (applyLoop api o post s3).resources⟩) := by
  refine ⟨applyLoop_blocks api o pre s0 hpre, ?_, ?_⟩
  · intro hae
    rw [applyLoop_append]
    simp only [seqOut, hpre]
    rw [applyLoop_cons_createErr hc hg hnf hcr hae]
  · intro hae
    rw [applyLoop_append]
    simp only [seqOut, hpre]
    rw [applyLoop_cons_alreadyExists hc hg hnf hcr hae]

/-- Witness for C3: empty prefix, a Deployment whose creation fails with a
non-already-exists error, and one unattempted resource after it. -/
theorem apply_partial_failure_witness :
    applyLoop failAPI wOwner ([] ++ wRes2 :: [wRes3]) () =
      ⟨some (.remote (.other 7)), (),
        (applyLoop failAPI wOwner [] ()).trace ++
          [.getOp wKey2, .createOp wKey2 (applyOwner wOwner wRes2)],
        (applyLoop failAPI wOwner [] ()).resources ++
          applyOwner wOwner wRes2 :: [wRes3]⟩ :=
  (apply_partial_failure Unit failAPI wOwner [] [wRes3] wRes2 () () ()
    wKey2 .notFound (.other 7) rfl (by decide) rfl rfl rfl).2.1 rfl

/-- The first Apply of an installation lifecycle: against the deterministic
store, starting from an empty remote. -/
def applyOnce (o : OwnerReference) (f : YamlFile) :
    ApplyOut (List ResourceKey) × YamlFile :=
  YamlFile.Apply storeAPI f o []

/-- The second Apply in a row: same engine, on the remote state the first
call left behind. -/
def applyTwice (o : OwnerReference) (f : YamlFile) :
    ApplyOut (List ResourceKey) × YamlFile :=
  YamlFile.Apply storeAPI (applyOnce o f).2 o (applyOnce o f).1.state

/-- C1: Apply is idempotent.  A resource whose existence check succeeds is
skipped without a create being issued; consequently, from an empty remote
store, the first Apply creates each resolved resource key exactly once and
returns no error, and a second Apply in a row performs zero creations,
returns no error, and leaves the remote resource set of the first call
unchanged. -/
theorem apply_idempotent (o : OwnerReference) (f : YamlFile)
    (hres : ∀ spec ∈ f.resources, (client spec).isOk = true) :
    (∀ (s : List ResourceKey) (spec : Unstructured)
      (rest : List Unstructured) (k : ResourceKey),
      client spec = .ok k → k ∈ s →
      applyLoop storeAPI o (spec :: rest) s =
        ⟨(applyLoop storeAPI o rest s).err,
          (applyLoop storeAPI o rest s).state,
          .getOp k :: (applyLoop storeAPI o rest s).trace,
          spec :: (applyLoop storeAPI o rest s).resources⟩) ∧
    (applyOnce o f).1.err = none ∧
    (∀ k, (createdKeys (applyOnce o f).1.trace).count k =
      if k ∈ okKeys f.resources then 1 else 0) ∧
    (applyTwice o f).1.err = none ∧
    createdKeys (applyTwice o f).1.trace = [] ∧
    (applyTwice o f).1.state = (applyOnce o f).1.state := by
  obtain ⟨h1, h2, h3⟩ := applyLoop_store_run o f.resources [] hres
  have hskip : ∀ spec' ∈ (applyOnce o f).1.resources, ∃ k,
      client spec' = .ok k ∧ k ∈ (applyOnce o f).1.state := by
    intro spec' hm
    obtain ⟨spec, hmem, hrel⟩ :=
      forall2_mem_right (applyLoop_frame storeAPI o f.resources []) spec' hm
    have hcl := client_eq_of_sameExceptOwner hrel
    have hio := hres spec hmem
    obtain ⟨k, hk⟩ : ∃ k, client spec = .ok k := by
      cases hcc : client spec
      · rw [hcc] at hio; cases hio
      · exact ⟨_, rfl⟩
    exact ⟨k, hcl.symm.trans hk,
      (h2 k).mpr (.inl (mem_okKeys_of hmem hk))⟩
  obtain ⟨g1, g2, g3, g4⟩ := applyLoop_store_skip_all o
    (applyOnce o f).1.resources (applyOnce o f).1.state hskip
  refine ⟨?_, h1, ?_, g1, g3, g2⟩
  · intro s spec rest k hc hk
    rw [applyLoop_cons_found hc (storeAPI_get_mem hk)]
  · intro k
    show List.count k
      (createdKeys (applyLoop storeAPI o f.resources []).trace) = _
    rw [h3 k]
    by_cases hk : k ∈ okKeys f.resources
    · rw [if_pos ⟨hk, List.not_mem_nil k⟩, if_pos hk]
    · rw [if_neg (fun hx => hk hx.1), if_neg hk]

/-- Witness for C1 on a concrete two-resource manifest: the first call
errs nowhere and creates the Deployment key once; the second call creates
nothing. -/
theorem apply_idempotent_witness :
    (applyOnce wOwner wFile).1.err = none ∧
    createdKeys (applyTwice wOwner wFile).1.trace = [] ∧
    (createdKeys (applyOnce wOwner wFile).1.trace).count wKey2 = 1 := by
  have h := apply_idempotent wOwner wFile (by decide)
  refine ⟨h.2.1, h.2.2.2.2.1, ?_⟩
  rw [h.2.2.1 wKey2]
  decide

/-- C8: over any sequence of Apply and Delete calls, every stored resource
agrees with its parse-time value on every field except possibly the
ownerReferences list (`sameExceptOwner` is equality of apiVersion, kind,
namespace, name and payload). -/
theorem engine_mutates_only_ownerRefs (σ : Type) (f : YamlFile)
    (cs : List (EngineCall σ)) :
    List.Forall₂ sameExceptOwner f.resources (runCalls f cs).resources := by
  induction cs generalizing f with
  | nil => exact List.forall₂_same.mpr fun x _ => sameExceptOwner_refl x
  | cons c cs ih =>
    show List.Forall₂ sameExceptOwner f.resources
      (runCalls (runCall f c) cs).resources
    have step : List.Forall₂ sameExceptOwner f.resources
        (runCall f c).resources := by
      cases c with
      | applyC api o s => exact applyLoop_frame api o f.resources s
      | deleteC api s =>
        exact List.forall₂_same.mpr fun x _ => sameExceptOwner_refl x
    exact forall2_sameExceptOwner_trans step (ih (runCall f c))

/-- C10: Delete reverses a private copy: the engine state it returns is the
engine it was called on, the stored resources (and hence what a subsequent
Apply or ResourceNames observes) are the parse-order originals, and the
two-pointer reversal it runs on the copy is exactly list reversal. -/
theorem delete_preserves_stored_resources (σ : Type) (api : RemoteAPI σ)
    (f : YamlFile) (s : σ) :
    (YamlFile.Delete api f s).2 = f ∧
    (YamlFile.Delete api f s).2.resources = f.resources ∧
    YamlFile.ResourceNames (YamlFile.Delete api f s).2 =
      YamlFile.ResourceNames f ∧
    (∀ (o : OwnerReference) (s2 : σ),
      YamlFile.Apply api (YamlFile.Delete api f s).2 o s2 =
        YamlFile.Apply api f o s2) ∧
    reverseCopy f.resources = f.resources.reverse :=
  ⟨rfl, rfl, rfl, fun _ _ => rfl, reverseCopy_eq_reverse f.resources⟩

/-- C9 counterexample: at this concrete engine, Apply returns only an
error value — a resolution error, with no resource processed (its trace is
empty) — while the engine's identifier list (the separate ResourceNames
method, the only identifier list in the interface) still reports both
parsed resources; so the identifier list the engine exposes is not "the
resources processed without fatal error", and Apply itself returns no
list at all. -/
theorem apply_identifier_list_counterexample :
    (YamlFile.Apply storeAPI wBadFile wOwner []).1.err =
      some (.resolution "unexpected GroupVersion string: a/b/c") ∧
    (YamlFile.Apply storeAPI wBadFile wOwner []).1.trace = [] ∧
    YamlFile.ResourceNames wBadFile =
      ["bad (/, Kind=Widget)", "knative-serving (/v1, Kind=Namespace)"] ∧
    YamlFile.ResourceNames wBadFile ≠ [] :=
  ⟨by decide, by decide, by decide, by decide⟩

/-- C9 amended: Apply returns only its error value; the identifier list
comes from the separate ResourceNames method, which reports every stored
resource — regardless of what Apply processed — in
"name (group/version, Kind=kind)" form, and is unchanged by Apply calls. -/
theorem resourceNames_reports_all (σ : Type) (api : RemoteAPI σ)
    (f : YamlFile) (o : OwnerReference) (s : σ) :
    YamlFile.ResourceNames (YamlFile.Apply api f o s).2 =
      YamlFile.ResourceNames f ∧
    YamlFile.ResourceNames f = f.resources.map fun spec =>
      spec.name ++ " (" ++ groupVersionKindOf spec ++ ")" := by
  constructor
  · exact map_name_eq_of_forall2 (applyLoop_frame api o f.resources s)
  · rfl

end Manifests
